import Mathlib

/-!
Formal model of the kfake mock Kafka cluster core (pkg/kfake/cluster.go):
the control-function registry (Control, ControlKey, KeepControl, tryControl,
callControl), the event-loop dispatch step (run), and the broker/partition
topology with its administrative operations (AddNode, RemoveNode,
MoveTopicPartition, ShufflePartitionLeaders / shufflePartitionsLocked).

Conventions of the embedding:
  - kmsg.Request is abstracted to its protocol key (the int16 returned by
    kreq.Key()) plus an opaque payload tag; kmsg.Response and error values
    are abstracted to opaque numeric tags, with none standing for Go nil.
  - int16 and int32 quantities (request keys, node IDs, epochs) are carried
    as Int; no operation in the modelled fragment approaches the width
    bounds, so wraparound is not modelled.
  - the Go map of control functions, map of int16 to slice of controlFn, is
    a total function from Int to lists (absent key = empty list); the
    len(c.control) == 0 fast path in tryControl is behaviourally the two
    empty loops and is not modelled separately.
  - rand.Intn(n) is modelled by an arbitrary stream r of naturals reduced
    mod n: every value below n is realizable.
  - net.Listen is an external collaborator and is modelled by a bind oracle
    from requested port to bound port (none = bind error).
-/

namespace Kfake

/-- A decoded client request, abstracted to its protocol key (the int16
result of kreq.Key()) and an opaque payload tag distinguishing requests. -/
structure KReq where
  key : Int
  payload : Nat
deriving DecidableEq

/-- The triple a control function returns: (kmsg.Response, error, handled),
with responses and errors abstracted to tags and none standing for nil. -/
structure CtlRes where
  kresp : Option Nat
  err : Option Nat
  handled : Bool
deriving DecidableEq

/-- A registered control function. run models the Go closure body; keep
models whether the body calls KeepControl during that invocation (the
keepCurrentControl flag, which callControl clears before the call and
reads-and-clears after the call). -/
structure CtlFn where
  run : KReq → CtlRes
  keep : KReq → Bool

/-- Point update of the registry map (writing c.control[k] = v). -/
def updMap (m : Int → List CtlFn) (k : Int) (v : List CtlFn) : Int → List CtlFn :=
  fun j => if j = k then v else m j

/-- callControl: clears keepCurrentControl, runs fn (with the registry
mutex released), and in its deferred closure, when the call reported
handled and KeepControl was invoked, re-appends fn to its key's current
list. Returns fn's result with the registry map after the deferred
closure ran. -/
def callControl (key : Int) (req : KReq) (fn : CtlFn) (m : Int → List CtlFn) :
    CtlRes × (Int → List CtlFn) :=
  let r := fn.run req
  (r, if r.handled && fn.keep req then updMap m key (m key ++ [fn]) else m)

/-- One of tryControl's two loops: runs the functions of the saved slice
(orig, traversed from position i) until one reports handled; at a handler
at index i the source then overwrites control[key] with the saved slice
minus index i -- append(keyFns[:i], keyFns[i+1:]...) -- which clobbers any
update the deferred closure in callControl just made to that key. Returns
(result if some function handled, registry map after, invocation trace). -/
def tryLoop (key : Int) (req : KReq) (orig : List CtlFn) :
    List CtlFn → Nat → (Int → List CtlFn) →
    Option CtlRes × (Int → List CtlFn) × List (Int × CtlFn)
  | [], _, m => (none, m, [])
  | fn :: rest, i, m =>
    let p := callControl key req fn m
    if p.1.handled then
      (some p.1, updMap p.2 key (orig.eraseIdx i), [(key, fn)])
    else
      let q := tryLoop key req orig rest (i + 1) p.2
      (q.1, q.2.1, (key, fn) :: q.2.2)

/-- tryControl: tries the list registered under the request's own key, then
the wildcard list under key -1, each in registration order; the first
function reporting handled terminates the search. Returns (result if
handled, final registry map, full invocation trace in order). -/
def tryControl (req : KReq) (m : Int → List CtlFn) :
    Option CtlRes × (Int → List CtlFn) × List (Int × CtlFn) :=
  let keyFns := m req.key
  match tryLoop req.key req keyFns keyFns 0 m with
  | (some res, m1, tr) => (some res, m1, tr)
  | (none, m1, tr) =>
    let anyFns := m1 (-1)
    let r2 := tryLoop (-1) req anyFns anyFns 0 m1
    (r2.1, r2.2.1, tr ++ r2.2.2)

/-- Whether a control function reports handled for this request. -/
def handledBy (req : KReq) (f : CtlFn) : Bool := (f.run req).handled

/-- The candidates tryControl may offer the request to, in offer order:
the specific-key list first, then the wildcard list, each tagged with the
key it is registered under. -/
def offered (req : KReq) (m : Int → List CtlFn) : List (Int × CtlFn) :=
  (m req.key).map (fun f => (req.key, f)) ++ (m (-1)).map (fun f => ((-1 : Int), f))

/-- Index of the first element satisfying p (the model's own finder, also
used to embed the Go find-first loops). -/
def firstIdx (p : α → Bool) : List α → Option Nat
  | [] => none
  | a :: t => if p a then some 0 else (firstIdx p t).map (fun j => j + 1)

/-- A response queued to a connection: (kmsg.Response, correlation, error),
abstracted as in CtlRes. -/
structure ClientResp where
  kresp : Option Nat
  corr : Int
  err : Option Nat
deriving DecidableEq

/-- The (response, error) outcome the run loop computes for a request:
the first handling control function's result if any, else the protocol
handler dispatch, which is outside this core and modelled as an oracle
(it also covers the unhandled-key error default). -/
def loopResult (handle : KReq → Option Nat × Option Nat)
    (m : Int → List CtlFn) (req : KReq) : Option Nat × Option Nat :=
  match (tryControl req m).1 with
  | some cr => (cr.kresp, cr.err)
  | none => handle req

/-- One run-loop iteration on a client request: offer it to the control
registry, else dispatch to the protocol handler; a result of nil response
and nil error (produce with no acks) suppresses the reply, any other
result is enqueued with the request's correlation number. Returns
(registry after, control invocation trace, enqueued response if any). -/
def runStepReq (handle : KReq → Option Nat × Option Nat)
    (m : Int → List CtlFn) (req : KReq) (corr : Int) :
    (Int → List CtlFn) × List (Int × CtlFn) × Option ClientResp :=
  let t := tryControl req m
  let res := loopResult handle m req
  (t.2.1, t.2.2,
   if res.1 = none ∧ res.2 = none then none
   else some (ClientResp.mk res.1 corr res.2))

/-- A deferred (parked) fetch: the cleaned flag plus the original client
request it re-materializes (request and correlation number). -/
structure WatchFetch where
  cleaned : Bool
  req : KReq
  corr : Int

/-- Modelled from the spec: watchFetch.cleanup (defined outside the
provided sources) marks the entry cleaned the first time either trigger
(timeout or data-ready wake) fires, so the racing second trigger finds
cleaned already set. -/
def cleanup (w : WatchFetch) : WatchFetch := { w with cleaned := true }

/-- One run-loop iteration on a deferred-fetch wake-up: a wake whose
cleaned flag is already set is discarded before any control function or
handler runs (the continue in the select); otherwise the entry is cleaned
and its original request goes through the normal dispatch path. Returns
(watch state after, registry after, control trace, enqueued response). -/
def runStepWatch (handle : KReq → Option Nat × Option Nat)
    (m : Int → List CtlFn) (w : WatchFetch) :
    WatchFetch × (Int → List CtlFn) × List (Int × CtlFn) × Option ClientResp :=
  if w.cleaned then (w, m, [], none)
  else
    let w2 := cleanup w
    let s := runStepReq handle m w2.req w2.corr
    (w2, s.1, s.2.1, s.2.2)

/-- A live broker: node ID (int32), its index in the cluster's broker list
(bsIdx), and the port its listener is bound to. -/
structure Broker where
  node : Int
  bsIdx : Nat
  port : Int
deriving DecidableEq

/-- Per-partition data relevant to the claims: the current leader's node
ID, where none models the no-leader sentinel broker (modelled from the
spec: noLeader is defined outside the provided sources), and the leader
epoch (int32). -/
structure PartData where
  leader : Option Int
  epoch : Int
deriving DecidableEq

/-- Cluster topology state: the live broker list bs, the topic-partition
store tps (modelled from the spec: the Topology Store container lives
outside the provided sources; an association list keyed by topic name and
partition index, keys unique as in a Go map), the nbrokers config count,
and the node IDs whose listeners have been closed. -/
structure ClusterState where
  bs : List Broker
  tps : List ((String × Int) × PartData)
  nbrokers : Int
  closed : List Int
deriving DecidableEq

/-- Modelled from the spec: the Topology Store lookup tps.getp (defined
outside the provided sources): the data recorded for (topic, partition). -/
def getp (tps : List ((String × Int) × PartData)) (t : String) (p : Int) :
    Option PartData :=
  (tps.find? (fun e => decide (e.1 = (t, p)))).map (fun e => e.2)

/-- The body shufflePartitionsLocked runs for every partition via tps.each
(modelled from the spec: each applies the closure to every partition; the
stream r supplies the rand.Intn draws, one per partition): assign a random
live broker as leader, or the no-leader sentinel if there are no brokers,
and bump the epoch. -/
def shuffleParts (r : Nat → Nat) (bs : List Broker) :
    List ((String × Int) × PartData) → Nat → List ((String × Int) × PartData)
  | [], _ => []
  | e :: rest, k =>
    (e.1,
     { leader := if bs.length = 0 then none
                 else some ((bs.getD (r k % bs.length) (Broker.mk 0 0 0)).node),
       epoch := e.2.epoch + 1 }) :: shuffleParts r bs rest (k + 1)

/-- shufflePartitionsLocked: re-elect every partition's leader at random
among the live brokers and bump every epoch. -/
def shufflePartitionsLocked (r : Nat → Nat) (st : ClusterState) : ClusterState :=
  { st with tps := shuffleParts r st.bs st.tps 0 }

/-- ShufflePartitionLeaders: the public wrapper, run as an admin closure
on the event loop. -/
def ShufflePartitionLeaders (r : Nat → Nat) (st : ClusterState) : ClusterState :=
  shufflePartitionsLocked r st

/-- The in-place pd.leader = br write of MoveTopicPartition: update the
entry getp found (the first with that key) to the target leader. -/
def setLeader : List ((String × Int) × PartData) → String → Int → Int →
    List ((String × Int) × PartData)
  | [], _, _, _ => []
  | e :: rest, t, p, n =>
    if e.1 = (t, p) then (e.1, { e.2 with leader := some n }) :: rest
    else e :: setLeader rest t p n

/-- MoveTopicPartition: look up the target node among live brokers, then
the partition; on success set exactly that partition's leader to the
target broker (no epoch change, no reshuffle); on a missing node or
topic/partition return the error with the state untouched. -/
def MoveTopicPartition (st : ClusterState) (topic : String) (partition : Int)
    (nodeID : Int) : ClusterState × Option String :=
  match st.bs.find? (fun b => decide (b.node = nodeID)) with
  | none => (st, some "node not found")
  | some br =>
    match getp st.tps topic partition with
    | none => (st, some "topic/partition not found")
    | some _ => ({ st with tps := setLeader st.tps topic partition br.node }, none)

/-- AddNode: an explicit nodeID that already exists fails; a negative
nodeID is auto-assigned one more than the maximum live node ID (0 when no
brokers exist); a negative port is normalized to 0 (ephemeral); the
listener is bound through the bind oracle, the broker appended, and a full
reshuffle performed. Returns (state, resolved node ID, port, error). -/
def AddNode (bind : Int → Option Int) (r : Nat → Nat) (st : ClusterState)
    (nodeID : Int) (port : Int) : ClusterState × Int × Int × Option String :=
  if decide (0 ≤ nodeID) && st.bs.any (fun b => decide (b.node = nodeID)) then
    (st, nodeID, port, some "node already exists")
  else
    let nodeID2 :=
      if 0 ≤ nodeID then nodeID
      else
        match st.bs with
        | [] => 0
        | b0 :: rest =>
          (rest.foldl (fun acc b => if acc < b.node then b.node else acc) b0.node) + 1
    let port2 := if port < 0 then 0 else port
    match bind port2 with
    | none => (st, nodeID2, port2, some "listen failed")
    | some bp =>
      let b := Broker.mk nodeID2 st.bs.length bp
      let st2 := { st with bs := st.bs ++ [b], nbrokers := st.nbrokers + 1 }
      (shufflePartitionsLocked r st2, nodeID2, bp, none)

/-- The find-first loop of RemoveNode, as an index. -/
def findNodeIdx (nodeID : Int) : List Broker → Option Nat
  | [] => none
  | b :: rest =>
    if b.node = nodeID then some 0 else (findNodeIdx nodeID rest).map (fun j => j + 1)

/-- RemoveNode: fails when the node is absent or is the last broker; else
closes its listener, removes it by writing the last broker over its slot
(updating that broker's bsIdx) and truncating, then reshuffles leaders. -/
def RemoveNode (r : Nat → Nat) (st : ClusterState) (nodeID : Int) :
    ClusterState × Option String :=
  match findNodeIdx nodeID st.bs with
  | none => (st, some "node not found")
  | some i =>
    if st.bs.length = 1 then (st, some "cannot remove all brokers")
    else
      let lastB := st.bs.getD (st.bs.length - 1) (Broker.mk 0 0 0)
      let bs2 := (st.bs.set i { lastB with bsIdx := i }).take (st.bs.length - 1)
      let st2 := { st with
                   bs := bs2,
                   nbrokers := st.nbrokers - 1,
                   closed := st.closed ++ [nodeID] }
      (shufflePartitionsLocked r st2, none)

/-- The broker list NewCluster builds for the default 3-broker cluster:
nodes 0, 1, 2 at positions 0, 1, 2, with no topics yet. -/
def freshCluster : ClusterState :=
  ClusterState.mk
    [Broker.mk 0 0 9092, Broker.mk 1 1 9093, Broker.mk 2 2 9094] [] 3 []

/-! ### List helper lemmas -/

lemma eraseIdx_append_len {α : Type} (l1 : List α) (x : α) (l2 : List α) :
    (l1 ++ x :: l2).eraseIdx l1.length = l1 ++ l2 := by
  induction l1 with
  | nil => rfl
  | cons a t ih => simp [List.eraseIdx, ih]

lemma take_append_cons {α : Type} (l1 : List α) (x : α) (l2 : List α) :
    (l1 ++ x :: l2).take (l1.length + 1) = l1 ++ [x] := by
  induction l1 with
  | nil => rfl
  | cons a t ih => simp [List.take, ih]

lemma mem_of_eraseIdx {α : Type} {x : α} :
    ∀ (l : List α) (i : Nat), x ∈ l.eraseIdx i → x ∈ l := by
  intro l
  induction l with
  | nil => intro i h; simp [List.eraseIdx] at h
  | cons a t ih =>
    intro i h
    cases i with
    | zero => exact List.mem_cons_of_mem a h
    | succ n =>
      simp only [List.eraseIdx] at h
      rcases List.mem_cons.mp h with h1 | h1
      · exact h1 ▸ List.mem_cons_self a t
      · exact List.mem_cons_of_mem a (ih n h1)

lemma getD_mem_of_lt {α : Type} :
    ∀ (l : List α) (i : Nat) (d : α), i < l.length → l.getD i d ∈ l := by
  intro l
  induction l with
  | nil => intro i d h; simp at h
  | cons a t ih =>
    intro i d h
    cases i with
    | zero => simp [List.getD]
    | succ n =>
      have : n < t.length := by simpa using h
      simpa [List.getD] using List.mem_cons_of_mem a (by simpa [List.getD] using ih n d this)

lemma kf_get_lt {α : Type} :
    ∀ (l : List α) (i : Nat), i < l.length → ∃ x, l.get? i = some x := by
  intro l
  induction l with
  | nil => intro i h; simp at h
  | cons a t ih =>
    intro i h
    cases i with
    | zero => exact ⟨a, rfl⟩
    | succ n => exact ih n (by simpa using h)

lemma kf_getD_of_get {α : Type} :
    ∀ (l : List α) (i : Nat) (x d : α), l.get? i = some x → l.getD i d = x := by
  intro l
  induction l with
  | nil => intro i x d h; simp at h
  | cons a t ih =>
    intro i x d h
    cases i with
    | zero => simp at h; simpa [List.getD] using h
    | succ n => simpa [List.getD] using ih n x d h

lemma kf_get_set_ne {α : Type} :
    ∀ (l : List α) (i j : Nat) (x : α), j ≠ i → (l.set i x).get? j = l.get? j := by
  intro l
  induction l with
  | nil => intro i j x _; simp
  | cons a t ih =>
    intro i j x hne
    cases i with
    | zero =>
      cases j with
      | zero => exact absurd rfl hne
      | succ m => simp [List.set]
    | succ n =>
      cases j with
      | zero => simp [List.set]
      | succ m => simpa [List.set] using ih n m x (fun h => hne (by simp [h]))

lemma kf_get_set_self {α : Type} :
    ∀ (l : List α) (i : Nat) (x : α), i < l.length → (l.set i x).get? i = some x := by
  intro l
  induction l with
  | nil => intro i x h; simp at h
  | cons a t ih =>
    intro i x h
    cases i with
    | zero => simp [List.set]
    | succ n => simpa [List.set] using ih n x (by simpa using h)

lemma kf_get_take {α : Type} :
    ∀ (l : List α) (n j : Nat), j < n → (l.take n).get? j = l.get? j := by
  intro l
  induction l with
  | nil => intro n j _; simp
  | cons a t ih =>
    intro n j h
    cases n with
    | zero => simp at h
    | succ n2 =>
      cases j with
      | zero => simp [List.take]
      | succ m => simpa [List.take] using ih n2 m (by simpa using h)

lemma kf_mem_get {α : Type} {x : α} :
    ∀ (l : List α), x ∈ l → ∃ i, l.get? i = some x := by
  intro l
  induction l with
  | nil => intro h; simp at h
  | cons a t ih =>
    intro h
    rcases List.mem_cons.mp h with h1 | h1
    · exact ⟨0, by simp [h1]⟩
    · rcases ih h1 with ⟨i, hi⟩
      exact ⟨i + 1, by simpa using hi⟩

/-! ### firstIdx lemmas -/

lemma firstIdx_eq_none {α : Type} (p : α → Bool) :
    ∀ l : List α, (∀ y ∈ l, p y = false) → firstIdx p l = none := by
  intro l
  induction l with
  | nil => intro _; rfl
  | cons a t ih =>
    intro h
    have ha : p a = false := h a (List.mem_cons_self a t)
    have ht : ∀ y ∈ t, p y = false := fun y hy => h y (List.mem_cons_of_mem a hy)
    simp [firstIdx, ha, ih ht]

lemma firstIdx_append_first {α : Type} (p : α → Bool) :
    ∀ (l1 : List α) (x : α) (l2 : List α), (∀ y ∈ l1, p y = false) → p x = true →
      firstIdx p (l1 ++ x :: l2) = some l1.length := by
  intro l1
  induction l1 with
  | nil => intro x l2 _ hx; simp [firstIdx, hx]
  | cons a t ih =>
    intro x l2 h hx
    have ha : p a = false := h a (List.mem_cons_self a t)
    have ht : ∀ y ∈ t, p y = false := fun y hy => h y (List.mem_cons_of_mem a hy)
    simp [firstIdx, ha, ih x l2 ht hx]

lemma split_first {α : Type} (p : α → Bool) :
    ∀ l : List α,
      (∀ y ∈ l, p y = false) ∨
      ∃ l1 x l2, l = l1 ++ x :: l2 ∧ (∀ y ∈ l1, p y = false) ∧ p x = true := by
  intro l
  induction l with
  | nil => left; intro y hy; simp at hy
  | cons a t ih =>
    by_cases ha : p a = true
    · right; exact ⟨[], a, t, by simp, by intro y hy; simp at hy, ha⟩
    · have ha2 : p a = false := by
        cases h2 : p a with
        | true => exact absurd h2 ha
        | false => rfl
      rcases ih with h1 | ⟨l1, x, l2, he, h2, h3⟩
      · left
        intro y hy
        rcases List.mem_cons.mp hy with hy1 | hy1
        · exact hy1 ▸ ha2
        · exact h1 y hy1
      · right
        refine ⟨a :: l1, x, l2, by simp [he], ?_, h3⟩
        intro y hy
        rcases List.mem_cons.mp hy with hy1 | hy1
        · exact hy1 ▸ ha2
        · exact h2 y hy1

/-! ### tryLoop characterization -/

lemma tryLoop_none (key : Int) (req : KReq) (orig : List CtlFn) :
    ∀ (l : List CtlFn) (i : Nat) (m : Int → List CtlFn),
      (∀ f ∈ l, handledBy req f = false) →
      tryLoop key req orig l i m = (none, m, l.map (fun f => (key, f))) := by
  intro l
  induction l with
  | nil => intro i m _; rfl
  | cons fn rest ih =>
    intro i m h
    have hfn : (fn.run req).handled = false := by
      simpa [handledBy] using h fn (List.mem_cons_self fn rest)
    have hrest : ∀ f ∈ rest, handledBy req f = false :=
      fun f hf => h f (List.mem_cons_of_mem fn hf)
    simp [tryLoop, callControl, hfn, ih (i + 1) m hrest]

lemma tryLoop_handled (key : Int) (req : KReq) (orig : List CtlFn) :
    ∀ (l1 : List CtlFn) (f : CtlFn) (l2 : List CtlFn) (i : Nat) (m : Int → List CtlFn),
      (∀ g ∈ l1, handledBy req g = false) → handledBy req f = true →
      tryLoop key req orig (l1 ++ f :: l2) i m =
        (some (f.run req),
         updMap (if f.keep req then updMap m key (m key ++ [f]) else m) key
           (orig.eraseIdx (i + l1.length)),
         l1.map (fun g => (key, g)) ++ [(key, f)]) := by
  intro l1
  induction l1 with
  | nil =>
    intro f l2 i m _ hf
    have hf2 : (f.run req).handled = true := by simpa [handledBy] using hf
    simp [tryLoop, callControl, hf2]
  | cons g t ih =>
    intro f l2 i m hg hf
    have hg1 : (g.run req).handled = false := by
      simpa [handledBy] using hg g (List.mem_cons_self g t)
    have ht : ∀ y ∈ t, handledBy req y = false :=
      fun y hy => hg y (List.mem_cons_of_mem g hy)
    have e : i + (g :: t).length = (i + 1) + t.length := by
      simp only [List.length_cons]
      omega
    rw [e]
    simp [tryLoop, callControl, hg1, ih f l2 (i + 1) m ht hf]

lemma tryLoop_trace_mem (key : Int) (req : KReq) (orig : List CtlFn) :
    ∀ (l : List CtlFn) (i : Nat) (m : Int → List CtlFn) (e : Int × CtlFn),
      e ∈ (tryLoop key req orig l i m).2.2 → e.1 = key ∧ e.2 ∈ l := by
  intro l
  induction l with
  | nil => intro i m e h; simp [tryLoop] at h
  | cons fn rest ih =>
    intro i m e h
    cases hh : (fn.run req).handled with
    | true =>
      simp [tryLoop, callControl, hh] at h
      subst h
      exact ⟨rfl, List.mem_cons_self fn rest⟩
    | false =>
      simp only [tryLoop, callControl, hh] at h
      simp at h
      rcases h with h1 | h1
      · subst h1; exact ⟨rfl, List.mem_cons_self fn rest⟩
      · rcases ih (i + 1) _ e h1 with ⟨he1, he2⟩
        exact ⟨he1, List.mem_cons_of_mem fn he2⟩

lemma tryLoop_map_mem (key : Int) (req : KReq) (orig : List CtlFn) :
    ∀ (l : List CtlFn) (i : Nat) (m : Int → List CtlFn) (k : Int) (g : CtlFn),
      g ∈ ((tryLoop key req orig l i m).2.1) k → g ∈ m k ∨ g ∈ l ∨ g ∈ orig := by
  intro l
  induction l with
  | nil => intro i m k g h; exact Or.inl h
  | cons fn rest ih =>
    intro i m k g h
    cases hh : (fn.run req).handled with
    | true =>
      simp [tryLoop, callControl, hh] at h
      by_cases hk : k = key
      · subst hk
        simp [updMap] at h
        exact Or.inr (Or.inr (mem_of_eraseIdx orig i h))
      · by_cases hkeep : fn.keep req = true
        · simp [hkeep, updMap, hk] at h
          exact Or.inl h
        · simp [hkeep, updMap, hk] at h
          exact Or.inl h
    | false =>
      simp [tryLoop, callControl, hh] at h
      rcases ih (i + 1) m k g h with h1 | h1 | h1
      · exact Or.inl h1
      · exact Or.inr (Or.inl (List.mem_cons_of_mem fn h1))
      · exact Or.inr (Or.inr h1)

lemma tryControl_trace_mem (req : KReq) (m : Int → List CtlFn) :
    ∀ e ∈ (tryControl req m).2.2, e.2 ∈ m req.key ∨ e.2 ∈ m (-1) := by
  intro e he
  rcases h1 : tryLoop req.key req (m req.key) (m req.key) 0 m with ⟨o, m1, tr⟩
  cases o with
  | some res =>
    have h2 : (tryControl req m).2.2 = tr := by simp [tryControl, h1]
    rw [h2] at he
    have h3 := tryLoop_trace_mem req.key req (m req.key) (m req.key) 0 m e
      (by rw [h1]; exact he)
    exact Or.inl h3.2
  | none =>
    have h2 : (tryControl req m).2.2 =
        tr ++ (tryLoop (-1) req (m1 (-1)) (m1 (-1)) 0 m1).2.2 := by
      simp [tryControl, h1]
    rw [h2] at he
    rcases List.mem_append.mp he with he1 | he1
    · have h3 := tryLoop_trace_mem req.key req (m req.key) (m req.key) 0 m e
        (by rw [h1]; exact he1)
      exact Or.inl h3.2
    · have h3 := tryLoop_trace_mem (-1) req (m1 (-1)) (m1 (-1)) 0 m1 e he1
      have h4 : e.2 ∈ ((tryLoop req.key req (m req.key) (m req.key) 0 m).2.1) (-1) := by
        rw [h1]; exact h3.2
      rcases tryLoop_map_mem req.key req (m req.key) (m req.key) 0 m (-1) e.2 h4 with
        h5 | h5 | h5
      · exact Or.inr h5
      · exact Or.inl h5
      · exact Or.inl h5

/-- C3: for every request offered to the control registry, Try invokes the
functions registered under the specific key first, in registration order,
then the wildcard functions in registration order, and the first function
reporting handled terminates the search: the invocation trace is exactly
the offer list cut right after its first handling element (the whole list
when none handles). -/
theorem tryControl_order (req : KReq) (m : Int → List CtlFn) :
    (tryControl req m).2.2 =
      match firstIdx (fun e => handledBy req e.2) (offered req m) with
      | some i => (offered req m).take (i + 1)
      | none => offered req m := by
  rcases split_first (handledBy req) (m req.key) with hA | ⟨A1, f, A2, hAeq, hA1, hAf⟩
  · have hloop1 := tryLoop_none req.key req (m req.key) (m req.key) 0 m hA
    rcases split_first (handledBy req) (m (-1)) with hB | ⟨B1, g, B2, hBeq, hB1, hBg⟩
    · have hfi : firstIdx (fun e => handledBy req e.2) (offered req m) = none := by
        apply firstIdx_eq_none
        intro y hy
        rcases List.mem_append.mp hy with hy1 | hy1
        · rcases List.mem_map.mp hy1 with ⟨fz, hfz, rfl⟩
          exact hA fz hfz
        · rcases List.mem_map.mp hy1 with ⟨fz, hfz, rfl⟩
          exact hB fz hfz
      rw [hfi]
      show (tryControl req m).2.2 = offered req m
      have hloop2 := tryLoop_none (-1) req (m (-1)) (m (-1)) 0 m hB
      simp [tryControl, hloop1, hloop2, offered]
    · have hsplit : offered req m =
          ((m req.key).map (fun f2 => (req.key, f2)) ++
             B1.map (fun f2 => ((-1 : Int), f2))) ++
            ((-1 : Int), g) :: B2.map (fun f2 => ((-1 : Int), f2)) := by
        simp [offered, hBeq]
      have hfi : firstIdx (fun e => handledBy req e.2) (offered req m) =
          some ((m req.key).map (fun f2 => (req.key, f2)) ++
            B1.map (fun f2 => ((-1 : Int), f2))).length := by
        rw [hsplit]
        apply firstIdx_append_first
        · intro y hy
          rcases List.mem_append.mp hy with hy1 | hy1
          · rcases List.mem_map.mp hy1 with ⟨fz, hfz, rfl⟩
            exact hA fz hfz
          · rcases List.mem_map.mp hy1 with ⟨fz, hfz, rfl⟩
            exact hB1 fz hfz
        · exact hBg
      rw [hfi]
      show (tryControl req m).2.2 =
        (offered req m).take
          (((m req.key).map (fun f2 => (req.key, f2)) ++
            B1.map (fun f2 => ((-1 : Int), f2))).length + 1)
      rw [hsplit, take_append_cons]
      have hloop2 := tryLoop_handled (-1) req (B1 ++ g :: B2) B1 g B2 0 m hB1 hBg
      simp only [tryControl]
      rw [hloop1]
      simp only [hBeq]
      rw [hloop2]
      simp
  · have hsplit : offered req m =
        (A1.map (fun f2 => (req.key, f2))) ++
          (req.key, f) :: (A2.map (fun f2 => (req.key, f2)) ++
            (m (-1)).map (fun f2 => ((-1 : Int), f2))) := by
      simp [offered, hAeq]
    have hfi : firstIdx (fun e => handledBy req e.2) (offered req m) =
        some (A1.map (fun f2 => (req.key, f2))).length := by
      rw [hsplit]
      apply firstIdx_append_first
      · intro y hy
        rcases List.mem_map.mp hy with ⟨fz, hfz, rfl⟩
        exact hA1 fz hfz
      · exact hAf
    rw [hfi]
    show (tryControl req m).2.2 =
      (offered req m).take ((A1.map (fun f2 => (req.key, f2))).length + 1)
    rw [hsplit, take_append_cons]
    have hloop1 := tryLoop_handled req.key req (A1 ++ f :: A2) A1 f A2 0 m hA1 hAf
    simp only [tryControl]
    simp only [hAeq]
    rw [hloop1]

/-- C4: a control function that handles without requesting retention has
its result returned by Try (and become the loop's delivery result), is
removed from its key's list while the other functions stay registered,
other keys are untouched, and -- once gone from the registry -- it is
never invoked by a subsequent Try of a matching request. -/
theorem tryControl_consume (req : KReq) (m : Int → List CtlFn)
    (A1 A2 : List CtlFn) (f : CtlFn)
    (hsplit : m req.key = A1 ++ f :: A2)
    (hA1 : ∀ g ∈ A1, handledBy req g = false)
    (hf : handledBy req f = true)
    (hkeep : f.keep req = false) :
    (tryControl req m).1 = some (f.run req) ∧
    ((tryControl req m).2.1) req.key = A1 ++ A2 ∧
    (∀ k, k ≠ req.key → ((tryControl req m).2.1) k = m k) ∧
    (∀ handle, loopResult handle m req = ((f.run req).kresp, (f.run req).err)) ∧
    (f ∉ A1 → f ∉ A2 → f ∉ m (-1) → req.key ≠ -1 →
      ∀ e ∈ (tryControl req ((tryControl req m).2.1)).2.2, e.2 ≠ f) := by
  have hloop := tryLoop_handled req.key req (A1 ++ f :: A2) A1 f A2 0 m hA1 hf
  have hmain : tryControl req m =
      (some (f.run req), updMap m req.key (A1 ++ A2),
       A1.map (fun g => (req.key, g)) ++ [(req.key, f)]) := by
    simp only [tryControl]
    simp only [hsplit]
    rw [hloop]
    simp [hkeep, eraseIdx_append_len]
  have hm2key : ((tryControl req m).2.1) req.key = A1 ++ A2 := by
    rw [hmain]; simp [updMap]
  refine ⟨by rw [hmain], hm2key, ?_, ?_, ?_⟩
  · intro k hk
    rw [hmain]
    simp [updMap, hk]
  · intro handle
    simp [loopResult, hmain]
  · intro hf1 hf2 hfw hkey e he hef
    have hm2w : ((tryControl req m).2.1) (-1) = m (-1) := by
      rw [hmain]
      have : ¬((-1 : Int) = req.key) := fun h2 => hkey h2.symm
      simp [updMap, this]
    rcases tryControl_trace_mem req ((tryControl req m).2.1) e he with h5 | h5
    · rw [hm2key, hef] at h5
      rcases List.mem_append.mp h5 with h6 | h6
      · exact hf1 h6
      · exact hf2 h6
    · rw [hm2w, hef] at h5
      exact hfw h5

/-- The control function of the C1 counterexample: handles every request
with response tag 7 and calls KeepControl. -/
def f0 : CtlFn := CtlFn.mk (fun _ => CtlRes.mk (some 7) none true) (fun _ => true)

/-- A registry holding exactly f0 under key 5. -/
def m0 : Int → List CtlFn := fun k => if k = 5 then [f0] else []

/-- A request with protocol key 5. -/
def req0 : KReq := KReq.mk 5 0

/-- C1: the code drops a retained control function. With the single
function f0 registered under key 5, which calls KeepControl and reports
handled, Try returns its response yet leaves the key-5 list empty -- the
re-append done in callControl's deferred closure is overwritten by the
removal write in tryControl -- so a second matching request invokes no
control function at all, where the claim (and the KeepControl
documentation in the source) promise f0 is offered again. -/
theorem keepControl_dropped :
    (tryControl req0 m0).1 = some (CtlRes.mk (some 7) none true) ∧
    ((tryControl req0 m0).2.1) 5 = [] ∧
    ((tryControl req0 m0).2.1) (-1) = [] ∧
    (tryControl req0 ((tryControl req0 m0).2.1)).2.2 = [] :=
  ⟨rfl, rfl, rfl, rfl⟩

/-- C8: a deferred-fetch wake-up whose cleaned flag is already set is
discarded: no control function runs, nothing is enqueued, the registry
and the watch are untouched; and after any delivery of a watch, a second
delivery of the same watch is always such a no-op, so the parked request
is processed at most once even when both triggers fire. -/
theorem watchFetch_discard_once (handle handle2 : KReq → Option Nat × Option Nat)
    (m m2 : Int → List CtlFn) (w : WatchFetch) :
    (w.cleaned = true → runStepWatch handle m w = (w, m, [], none)) ∧
    runStepWatch handle2 m2 (runStepWatch handle m w).1 =
      ((runStepWatch handle m w).1, m2, [], none) := by
  constructor
  · intro hw
    simp [runStepWatch, hw]
  · cases hw : w.cleaned with
    | true => simp [runStepWatch, hw]
    | false => simp [runStepWatch, hw, cleanup]

/-- C8 witness: a watch already cleaned is discarded whole. -/
theorem watchFetch_discard_once_witness :
    runStepWatch (fun _ => (none, none)) (fun _ => []) (WatchFetch.mk true req0 0) =
      (WatchFetch.mk true req0 0, (fun _ => []), [], none) :=
  (watchFetch_discard_once (fun _ => (none, none)) (fun _ => (none, none))
    (fun _ => []) (fun _ => []) (WatchFetch.mk true req0 0)).1 rfl

/-- C9: the run loop enqueues nothing exactly when the processing result
is a nil response with a nil error (the no-acks produce contract), and
otherwise enqueues that result paired with the request's correlation
number. -/
theorem runStep_suppress (handle : KReq → Option Nat × Option Nat)
    (m : Int → List CtlFn) (req : KReq) (corr : Int) :
    ((runStepReq handle m req corr).2.2 = none ↔
      loopResult handle m req = (none, none)) ∧
    (∀ a b, loopResult handle m req = (a, b) → ¬(a = none ∧ b = none) →
      (runStepReq handle m req corr).2.2 = some (ClientResp.mk a corr b)) := by
  rcases hres : loopResult handle m req with ⟨a, b⟩
  constructor
  · by_cases h : a = none ∧ b = none
    · simp [runStepReq, hres, h, Prod.ext_iff]
    · simp [runStepReq, hres, h, Prod.ext_iff]
  · intro a2 b2 h1 h2
    cases h1
    simp [runStepReq, hres, h2]

/-- C9 witness: a handler result with a response is enqueued with the
correlation number. -/
theorem runStep_suppress_witness :
    (runStepReq (fun _ => (some 1, none)) (fun _ => []) req0 0).2.2 =
      some (ClientResp.mk (some 1) 0 none) :=
  (runStep_suppress (fun _ => (some 1, none)) (fun _ => []) req0 0).2
    (some 1) none rfl (by simp)

/-- The control function of the C4 witness: handles with response tag 9
and does not call KeepControl. -/
def fP : CtlFn := CtlFn.mk (fun _ => CtlRes.mk (some 9) none true) (fun _ => false)

/-- A registry holding exactly fP under key 5. -/
def mP : Int → List CtlFn := fun k => if k = 5 then [fP] else []

/-- C4 witness: fP handles the key-5 request and is consumed. -/
theorem tryControl_consume_witness :
    (tryControl req0 mP).1 = some (fP.run req0) ∧ ((tryControl req0 mP).2.1) 5 = [] := by
  have h := tryControl_consume req0 mP [] [] fP (by simp [mP, req0])
    (by intro g hg; simp at hg) (by rfl) (by rfl)
  exact ⟨h.1, h.2.1⟩

/-! ### Shuffle lemmas and topology theorems -/

lemma shuffleParts_length (r : Nat → Nat) (bs : List Broker) :
    ∀ (l : List ((String × Int) × PartData)) (k : Nat),
      (shuffleParts r bs l k).length = l.length := by
  intro l
  induction l with
  | nil => intro k; rfl
  | cons e rest ih => intro k; simp [shuffleParts, ih]

lemma shuffleParts_spec (r : Nat → Nat) (bs : List Broker) :
    ∀ (l : List ((String × Int) × PartData)) (k j : Nat) (tp : String × Int)
      (p2 : PartData),
      (shuffleParts r bs l k).get? j = some (tp, p2) →
      ∃ p1, l.get? j = some (tp, p1) ∧ p2.epoch = p1.epoch + 1 ∧
        ((bs = [] ∧ p2.leader = none) ∨ ∃ b ∈ bs, p2.leader = some b.node) := by
  intro l
  induction l with
  | nil => intro k j tp p2 h; simp [shuffleParts] at h
  | cons e rest ih =>
    intro k j tp p2 h
    cases j with
    | zero =>
      have hh : (shuffleParts r bs (e :: rest) k).get? 0 =
          some (e.1, PartData.mk
            (if bs.length = 0 then none
             else some ((bs.getD (r k % bs.length) (Broker.mk 0 0 0)).node))
            (e.2.epoch + 1)) := rfl
      rw [hh] at h
      have h3 := Option.some.inj h
      injection h3 with h1 h2
      refine ⟨e.2, ?_, ?_, ?_⟩
      · rw [← h1]; rfl
      · rw [← h2]
      · rw [← h2]
        cases bs with
        | nil => exact Or.inl ⟨rfl, rfl⟩
        | cons c cs =>
          refine Or.inr ⟨(c :: cs).getD (r k % (c :: cs).length) (Broker.mk 0 0 0),
            getD_mem_of_lt (c :: cs) _ _ (Nat.mod_lt _ (by simp)), rfl⟩
    | succ n =>
      have hh : (shuffleParts r bs (e :: rest) k).get? (n + 1) =
          (shuffleParts r bs rest (k + 1)).get? n := rfl
      rw [hh] at h
      exact ih (k + 1) n tp p2 h

/-- C2: ShufflePartitionLeaders leaves the broker list and the partition
count unchanged and gives every partition an epoch of exactly its previous
epoch plus one and a leader drawn from the current live broker list, or
the no-leader sentinel when the broker list is empty. -/
theorem shufflePartitionLeaders_spec (r : Nat → Nat) (st : ClusterState) :
    (ShufflePartitionLeaders r st).bs = st.bs ∧
    (ShufflePartitionLeaders r st).tps.length = st.tps.length ∧
    ∀ (j : Nat) (tp : String × Int) (p2 : PartData),
      (ShufflePartitionLeaders r st).tps.get? j = some (tp, p2) →
      ∃ p1, st.tps.get? j = some (tp, p1) ∧ p2.epoch = p1.epoch + 1 ∧
        ((st.bs = [] ∧ p2.leader = none) ∨ ∃ b ∈ st.bs, p2.leader = some b.node) :=
  ⟨rfl, shuffleParts_length r st.bs st.tps 0,
   fun j tp p2 h => shuffleParts_spec r st.bs st.tps 0 j tp p2 h⟩

/-- A two-broker, two-partition cluster used by topology witnesses. -/
def stW : ClusterState :=
  ClusterState.mk [Broker.mk 0 0 1, Broker.mk 1 1 2]
    [(("t", 0), PartData.mk (some 0) 0), (("t", 1), PartData.mk (some 1) 0)] 2 []

/-- C2 witness: on stW with an all-ones draw stream, partition ("t", 0)
comes out with epoch 1 and leader node 1, a live broker. -/
theorem shufflePartitionLeaders_spec_witness :
    ∃ p1, stW.tps.get? 0 = some (("t", 0), p1) ∧
      (PartData.mk (some 1) 1).epoch = p1.epoch + 1 ∧
      ((stW.bs = [] ∧ (PartData.mk (some 1) 1).leader = none) ∨
       ∃ b ∈ stW.bs, (PartData.mk (some 1) 1).leader = some b.node) :=
  (shufflePartitionLeaders_spec (fun _ => 1) stW).2.2 0 ("t", 0)
    (PartData.mk (some 1) 1) rfl

lemma find?_append_first {α : Type} (p : α → Bool) :
    ∀ (l1 : List α) (x : α) (l2 : List α), (∀ y ∈ l1, p y = false) → p x = true →
      (l1 ++ x :: l2).find? p = some x := by
  intro l1
  induction l1 with
  | nil => intro x l2 _ hx; simp [List.find?, hx]
  | cons a t ih =>
    intro x l2 h hx
    have ha : p a = false := h a (List.mem_cons_self a t)
    have ht : ∀ y ∈ t, p y = false := fun y hy => h y (List.mem_cons_of_mem a hy)
    simp [List.find?, ha, ih x l2 ht hx]

lemma getp_split (t : String) (pt : Int) :
    ∀ (l1 l2 : List ((String × Int) × PartData)) (p : PartData),
      (∀ e ∈ l1, e.1 ≠ (t, pt)) →
      getp (l1 ++ ((t, pt), p) :: l2) t pt = some p := by
  intro l1 l2 p h
  have h1 : ∀ y ∈ l1, (fun e => decide (e.1 = (t, pt))) y = false := by
    intro y hy
    simp [h y hy]
  rw [getp, find?_append_first _ l1 ((t, pt), p) l2 h1 (by simp)]
  rfl

lemma setLeader_split (t : String) (pt : Int) (n : Int) :
    ∀ (l1 l2 : List ((String × Int) × PartData)) (p : PartData),
      (∀ e ∈ l1, e.1 ≠ (t, pt)) →
      setLeader (l1 ++ ((t, pt), p) :: l2) t pt n =
        l1 ++ ((t, pt), PartData.mk (some n) p.epoch) :: l2 := by
  intro l1
  induction l1 with
  | nil => intro l2 p _; simp [setLeader]
  | cons e t1 ih =>
    intro l2 p h
    have he : e.1 ≠ (t, pt) := h e (List.mem_cons_self e t1)
    have ht : ∀ y ∈ t1, y.1 ≠ (t, pt) := fun y hy => h y (List.mem_cons_of_mem e hy)
    simp [setLeader, he, ih l2 p ht]

/-- C5: MoveTopicPartition to an existing node and partition rewrites only
that partition's leader, keeping its epoch and every other entry, the
broker list and the rest of the state intact; a missing node or a missing
topic/partition yields an error with the state returned unchanged. -/
theorem moveTopicPartition_frame (st : ClusterState) (topic : String)
    (partition : Int) (nodeID : Int) :
    (st.bs.find? (fun b => decide (b.node = nodeID)) = none →
       MoveTopicPartition st topic partition nodeID = (st, some "node not found")) ∧
    (∀ br, st.bs.find? (fun b => decide (b.node = nodeID)) = some br →
       getp st.tps topic partition = none →
       MoveTopicPartition st topic partition nodeID =
         (st, some "topic/partition not found")) ∧
    (∀ br l1 p l2, st.bs.find? (fun b => decide (b.node = nodeID)) = some br →
       st.tps = l1 ++ ((topic, partition), p) :: l2 →
       (∀ e ∈ l1, e.1 ≠ (topic, partition)) →
       MoveTopicPartition st topic partition nodeID =
         ({ st with tps := l1 ++ ((topic, partition),
             PartData.mk (some br.node) p.epoch) :: l2 }, none)) := by
  refine ⟨?_, ?_, ?_⟩
  · intro h
    simp [MoveTopicPartition, h]
  · intro br h1 h2
    simp [MoveTopicPartition, h1, h2]
  · intro br l1 p l2 h1 h2 h3
    have hg : getp st.tps topic partition = some p := by
      rw [h2]
      exact getp_split topic partition l1 l2 p h3
    simp only [MoveTopicPartition, h1, hg]
    rw [h2, setLeader_split topic partition br.node l1 l2 p h3]

/-- C5 witness: on stW, moving ("t", 0) to node 1 rewrites only that
entry's leader and reports no error. -/
theorem moveTopicPartition_frame_witness :
    MoveTopicPartition stW "t" 0 1 =
      ({ stW with tps := [(("t", 0), PartData.mk (some 1) 0),
         (("t", 1), PartData.mk (some 1) 0)] }, none) :=
  (moveTopicPartition_frame stW "t" 0 1).2.2 (Broker.mk 1 1 2) []
    (PartData.mk (some 0) 0) [(("t", 1), PartData.mk (some 1) 0)] rfl rfl
    (by intro e he; simp at he)

lemma findNodeIdx_some :
    ∀ (l : List Broker) (n : Int) (i : Nat),
      findNodeIdx n l = some i →
      i < l.length ∧ ∃ b, l.get? i = some b ∧ b.node = n := by
  intro l
  induction l with
  | nil => intro n i h; simp [findNodeIdx] at h
  | cons b t ih =>
    intro n i h
    by_cases hb : b.node = n
    · simp [findNodeIdx, hb] at h
      subst h
      exact ⟨by simp, b, rfl, hb⟩
    · simp [findNodeIdx, hb] at h
      rcases h with ⟨j, hj, hi⟩
      rcases ih n j hj with ⟨h1, bb, h2, h3⟩
      subst hi
      exact ⟨by simpa using Nat.succ_lt_succ h1, bb, by simpa using h2, h3⟩

lemma kf_lt_of_get {α : Type} :
    ∀ (l : List α) (j : Nat) (x : α), l.get? j = some x → j < l.length := by
  intro l
  induction l with
  | nil => intro j x h; simp at h
  | cons a t ih =>
    intro j x h
    cases j with
    | zero => simp
    | succ n => simpa using ih n x h

/-- The success case of RemoveNode, shared by the RemoveNode theorems:
no error, the closed listener recorded, the broker list shortened by one
with the old last broker (position index rewritten) written over the
removed slot and every other broker kept in place, and every partition
reshuffled against the shrunken broker list. -/
lemma removeNode_success (r : Nat → Nat) (st : ClusterState) (nodeID : Int)
    (i : Nat) (hidx : findNodeIdx nodeID st.bs = some i)
    (hne : st.bs.length ≠ 1) :
    (RemoveNode r st nodeID).2 = none ∧
    nodeID ∈ (RemoveNode r st nodeID).1.closed ∧
    (RemoveNode r st nodeID).1.bs.length = st.bs.length - 1 ∧
    (∀ j, j < st.bs.length - 1 → j ≠ i →
       (RemoveNode r st nodeID).1.bs.get? j = st.bs.get? j) ∧
    (i < st.bs.length - 1 →
       (RemoveNode r st nodeID).1.bs.get? i =
         some { st.bs.getD (st.bs.length - 1) (Broker.mk 0 0 0) with bsIdx := i }) ∧
    (∀ j tp p2, (RemoveNode r st nodeID).1.tps.get? j = some (tp, p2) →
       ∃ p1, st.tps.get? j = some (tp, p1) ∧ p2.epoch = p1.epoch + 1 ∧
         (((RemoveNode r st nodeID).1.bs = [] ∧ p2.leader = none) ∨
          ∃ b ∈ (RemoveNode r st nodeID).1.bs, p2.leader = some b.node)) := by
  have hi := findNodeIdx_some st.bs nodeID i hidx
  have hmain : RemoveNode r st nodeID =
      (shufflePartitionsLocked r
        { st with
          bs := (st.bs.set i
            { st.bs.getD (st.bs.length - 1) (Broker.mk 0 0 0) with
              bsIdx := i }).take (st.bs.length - 1),
          nbrokers := st.nbrokers - 1,
          closed := st.closed ++ [nodeID] }, none) := by
    simp [RemoveNode, hidx, hne]
  have hbs : (RemoveNode r st nodeID).1.bs =
      (st.bs.set i
        { st.bs.getD (st.bs.length - 1) (Broker.mk 0 0 0) with
          bsIdx := i }).take (st.bs.length - 1) := by
    rw [hmain]
    rfl
  have hcl : (RemoveNode r st nodeID).1.closed = st.closed ++ [nodeID] := by
    rw [hmain]
    rfl
  have htps : (RemoveNode r st nodeID).1.tps =
      shuffleParts r ((RemoveNode r st nodeID).1.bs) st.tps 0 := by
    rw [hbs, hmain]
    rfl
  refine ⟨by rw [hmain], by rw [hcl]; simp, ?_, ?_, ?_, ?_⟩
  · rw [hbs, List.length_take, List.length_set]
    exact Nat.min_eq_left (Nat.sub_le _ 1)
  · intro j hj hji
    rw [hbs, kf_get_take _ _ _ hj, kf_get_set_ne _ _ _ _ hji]
  · intro hilt
    rw [hbs, kf_get_take _ _ _ hilt, kf_get_set_self _ _ _ hi.1]
  · intro j tp p2 h
    rw [htps] at h
    exact shuffleParts_spec r _ st.tps 0 j tp p2 h

/-- C6: RemoveNode fails, leaving the whole state untouched, when the node
is absent or when the named broker is the sole remaining one; otherwise it
reports no error, records the closed listener, shortens the broker list by
one by writing the old last broker (with its position index rewritten)
over the removed slot, keeps every other broker in place, and reshuffles
every partition: epoch up by one and leader drawn from the shrunken live
broker list. -/
theorem removeNode_spec (r : Nat → Nat) (st : ClusterState) (nodeID : Int) :
    (findNodeIdx nodeID st.bs = none →
       RemoveNode r st nodeID = (st, some "node not found")) ∧
    (∀ b, st.bs = [b] → b.node = nodeID →
       RemoveNode r st nodeID = (st, some "cannot remove all brokers")) ∧
    (∀ i, findNodeIdx nodeID st.bs = some i → st.bs.length ≠ 1 →
       (RemoveNode r st nodeID).2 = none ∧
       nodeID ∈ (RemoveNode r st nodeID).1.closed ∧
       (RemoveNode r st nodeID).1.bs.length = st.bs.length - 1 ∧
       (∀ j, j < st.bs.length - 1 → j ≠ i →
          (RemoveNode r st nodeID).1.bs.get? j = st.bs.get? j) ∧
       (i < st.bs.length - 1 →
          (RemoveNode r st nodeID).1.bs.get? i =
            some { st.bs.getD (st.bs.length - 1) (Broker.mk 0 0 0) with bsIdx := i }) ∧
       (∀ j tp p2, (RemoveNode r st nodeID).1.tps.get? j = some (tp, p2) →
          ∃ p1, st.tps.get? j = some (tp, p1) ∧ p2.epoch = p1.epoch + 1 ∧
            (((RemoveNode r st nodeID).1.bs = [] ∧ p2.leader = none) ∨
             ∃ b ∈ (RemoveNode r st nodeID).1.bs, p2.leader = some b.node))) := by
  refine ⟨?_, ?_, ?_⟩
  · intro h
    simp [RemoveNode, h]
  · intro b hb hbn
    have hidx : findNodeIdx nodeID st.bs = some 0 := by
      rw [hb]; simp [findNodeIdx, hbn]
    have hlen : st.bs.length = 1 := by rw [hb]; rfl
    simp [RemoveNode, hidx, hlen]
  · intro i hidx hne
    exact removeNode_success r st nodeID i hidx hne

/-- C6 witness: removing node 1 from the fresh 3-broker cluster succeeds
and records node 1's listener as closed. -/
theorem removeNode_spec_witness :
    (RemoveNode (fun _ => 0) freshCluster 1).2 = none ∧
    (1 : Int) ∈ (RemoveNode (fun _ => 0) freshCluster 1).1.closed := by
  have h := (removeNode_spec (fun _ => 0) freshCluster 1).2.2 1 rfl (by decide)
  exact ⟨h.1, h.2.1⟩

/-! ### AddNode lemmas -/

lemma foldMax_ge :
    ∀ (l : List Broker) (a : Int),
      a ≤ l.foldl (fun acc b => if acc < b.node then b.node else acc) a ∧
      ∀ b ∈ l, b.node ≤ l.foldl (fun acc b => if acc < b.node then b.node else acc) a := by
  intro l
  induction l with
  | nil =>
    intro a
    exact ⟨le_refl a, by intro b hb; simp at hb⟩
  | cons c t ih =>
    intro a
    simp only [List.foldl_cons]
    have hstep : a ≤ (if a < c.node then c.node else a) ∧
        c.node ≤ (if a < c.node then c.node else a) := by
      by_cases h : a < c.node
      · simp [h]
        omega
      · simp [h]
        omega
    refine ⟨le_trans hstep.1 (ih _).1, ?_⟩
    intro b hb
    rcases List.mem_cons.mp hb with h1 | h1
    · rw [h1]
      exact le_trans hstep.2 (ih _).1
    · exact (ih _).2 b h1

lemma foldMax_mem :
    ∀ (l : List Broker) (a : Int),
      l.foldl (fun acc b => if acc < b.node then b.node else acc) a = a ∨
      ∃ b ∈ l, l.foldl (fun acc b => if acc < b.node then b.node else acc) a = b.node := by
  intro l
  induction l with
  | nil => intro a; exact Or.inl rfl
  | cons c t ih =>
    intro a
    simp only [List.foldl_cons]
    rcases ih (if a < c.node then c.node else a) with h1 | ⟨b, hb, h2⟩
    · by_cases h : a < c.node
      · right
        exact ⟨c, List.mem_cons_self c t, by rw [h1]; simp [h]⟩
      · left
        rw [h1]
        simp [h]
    · right
      exact ⟨b, List.mem_cons_of_mem c hb, h2⟩

lemma foldMax_le :
    ∀ (l : List Broker) (a cmax : Int), a ≤ cmax → (∀ b ∈ l, b.node ≤ cmax) →
      l.foldl (fun acc b => if acc < b.node then b.node else acc) a ≤ cmax := by
  intro l
  induction l with
  | nil => intro a cm h _; exact h
  | cons c t ih =>
    intro a cm ha hall
    simp only [List.foldl_cons]
    apply ih
    · by_cases h : a < c.node
      · simp [h]
        exact hall c (List.mem_cons_self c t)
      · simp [h]
        exact ha
    · intro b hb
      exact hall b (List.mem_cons_of_mem c hb)

/-- C7: AddNode with an explicit node ID that is already live fails and
adds nothing; with a negative node ID it resolves the ID to 0 on an empty
broker list and otherwise to one more than the maximum live node ID; and
on the fresh 3-broker cluster, AddNode(-1, 0) with a successful ephemeral
bind returns node ID 3, the bound port (positive), no error, and a
4-broker list. -/
theorem addNode_spec (bind : Int → Option Int) (r : Nat → Nat)
    (st : ClusterState) (nodeID : Int) (port : Int) :
    (0 ≤ nodeID → st.bs.any (fun b => decide (b.node = nodeID)) = true →
       AddNode bind r st nodeID port = (st, nodeID, port, some "node already exists")) ∧
    (nodeID < 0 → st.bs = [] → (AddNode bind r st nodeID port).2.1 = 0) ∧
    (nodeID < 0 → st.bs ≠ [] →
       ∃ b ∈ st.bs, (AddNode bind r st nodeID port).2.1 = b.node + 1 ∧
         ∀ b2 ∈ st.bs, b2.node ≤ b.node) ∧
    (∀ bp, 0 < bp → bind 0 = some bp →
       (AddNode bind r freshCluster (-1) 0).2.1 = 3 ∧
       (AddNode bind r freshCluster (-1) 0).2.2.1 = bp ∧ 0 < bp ∧
       (AddNode bind r freshCluster (-1) 0).2.2.2 = none ∧
       (AddNode bind r freshCluster (-1) 0).1.bs.length = 4) := by
  refine ⟨?_, ?_, ?_, ?_⟩
  · intro h1 h2
    simp [AddNode, h1, h2]
  · intro h1 h2
    have hnot : ¬(0 ≤ nodeID) := by omega
    cases hbind : bind (if port < 0 then 0 else port) with
    | none => simp [AddNode, hnot, h2, hbind]
    | some bp => simp [AddNode, hnot, h2, hbind]
  · intro h1 h2
    have hnot : ¬(0 ≤ nodeID) := by omega
    obtain ⟨b0, rest, hbs⟩ := List.exists_cons_of_ne_nil h2
    have hval : (AddNode bind r st nodeID port).2.1 =
        (rest.foldl (fun acc b => if acc < b.node then b.node else acc) b0.node) + 1 := by
      cases hbind : bind (if port < 0 then 0 else port) with
      | none => simp [AddNode, hnot, hbs, hbind]
      | some bp => simp [AddNode, hnot, hbs, hbind]
    have hge := foldMax_ge rest b0.node
    have hbound : ∀ b2 ∈ st.bs,
        b2.node ≤ rest.foldl (fun acc b => if acc < b.node then b.node else acc) b0.node := by
      intro b2 hb2
      rw [hbs] at hb2
      rcases List.mem_cons.mp hb2 with h3 | h3
      · rw [h3]
        exact hge.1
      · exact hge.2 b2 h3
    rcases foldMax_mem rest b0.node with hm | ⟨b, hb, hm⟩
    · refine ⟨b0, by rw [hbs]; exact List.mem_cons_self b0 rest, by rw [hval, hm], ?_⟩
      intro b2 hb2
      have := hbound b2 hb2
      rw [hm] at this
      exact this
    · refine ⟨b, by rw [hbs]; exact List.mem_cons_of_mem b0 hb, by rw [hval, hm], ?_⟩
      intro b2 hb2
      have := hbound b2 hb2
      rw [hm] at this
      exact this
  · intro bp hbp hbind
    have hcomp : AddNode bind r freshCluster (-1) 0 =
        (shufflePartitionsLocked r
          { freshCluster with
            bs := freshCluster.bs ++ [Broker.mk 3 3 bp],
            nbrokers := 4 }, 3, bp, none) := by
      simp [AddNode, freshCluster, hbind]
    refine ⟨by rw [hcomp], by rw [hcomp], hbp, by rw [hcomp], ?_⟩
    rw [hcomp]
    rfl

/-- C7 witness: the concrete 3-broker scenario with a bind oracle that
returns port 40000. -/
theorem addNode_spec_witness :
    (AddNode (fun _ => some 40000) (fun _ => 0) freshCluster (-1) 0).2.1 = 3 ∧
    (AddNode (fun _ => some 40000) (fun _ => 0) freshCluster (-1) 0).2.2.1 = 40000 ∧
    (0 : Int) < 40000 ∧
    (AddNode (fun _ => some 40000) (fun _ => 0) freshCluster (-1) 0).2.2.2 = none ∧
    (AddNode (fun _ => some 40000) (fun _ => 0) freshCluster (-1) 0).1.bs.length = 4 :=
  (addNode_spec (fun _ => some 40000) (fun _ => 0) freshCluster (-1) 0).2.2.2
    40000 (by norm_num) rfl

/-- C10: the automatic ID scan covers only live brokers, so after removing
the broker that holds the strict maximum node ID, the next automatically
assigned ID is at most the removed ID -- IDs can be reused across the
cluster's lifetime. -/
theorem addNode_reuses_removed_id (bind : Int → Option Int) (r r2 : Nat → Nat)
    (st : ClusterState) (M : Int) (i : Nat) (port : Int)
    (hi : findNodeIdx M st.bs = some i)
    (hlt : ∀ j b2, st.bs.get? j = some b2 → j ≠ i → b2.node < M)
    (hn : st.bs.length ≠ 1) :
    (RemoveNode r st M).2 = none ∧
    (RemoveNode r st M).1.bs ≠ [] ∧
    (AddNode bind r2 (RemoveNode r st M).1 (-1) port).2.1 ≤ M := by
  have hsome := findNodeIdx_some st.bs M i hi
  have hn2 : 2 ≤ st.bs.length := by omega
  have hs := removeNode_success r st M i hi hn
  have hlen : (RemoveNode r st M).1.bs.length = st.bs.length - 1 := hs.2.2.1
  have hpos : (RemoveNode r st M).1.bs ≠ [] := by
    have h0 : 0 < (RemoveNode r st M).1.bs.length := by omega
    exact List.ne_nil_of_length_pos h0
  have hall : ∀ b ∈ (RemoveNode r st M).1.bs, b.node < M := by
    intro b hb
    rcases kf_mem_get _ hb with ⟨j, hj⟩
    have hjlen : j < st.bs.length - 1 := by
      have := kf_lt_of_get _ j b hj
      omega
    by_cases hji : j = i
    · subst hji
      have hget := hs.2.2.2.2.1 hjlen
      rw [hget] at hj
      have hb2 := Option.some.inj hj
      obtain ⟨x, hx⟩ := kf_get_lt st.bs (st.bs.length - 1) (by omega)
      have hxnode : x.node < M := hlt (st.bs.length - 1) x hx (by omega)
      have hgd : st.bs.getD (st.bs.length - 1) (Broker.mk 0 0 0) = x :=
        kf_getD_of_get st.bs (st.bs.length - 1) x (Broker.mk 0 0 0) hx
      rw [← hb2]
      rw [hgd]
      exact hxnode
    · have hget := hs.2.2.2.1 j hjlen hji
      rw [hget] at hj
      exact hlt j b hj hji
  refine ⟨hs.1, hpos, ?_⟩
  have hnot : ¬(0 ≤ (-1 : Int)) := by norm_num
  obtain ⟨b0, rest, hbs⟩ := List.exists_cons_of_ne_nil hpos
  have hval : (AddNode bind r2 (RemoveNode r st M).1 (-1) port).2.1 =
      (rest.foldl (fun acc b => if acc < b.node then b.node else acc) b0.node) + 1 := by
    cases hbind : bind (if port < 0 then 0 else port) with
    | none => simp [AddNode, hnot, hbs, hbind]
    | some bp => simp [AddNode, hnot, hbs, hbind]
  have hb0 : b0.node ≤ M - 1 := by
    have := hall b0 (by rw [hbs]; exact List.mem_cons_self b0 rest)
    omega
  have hrest : ∀ b ∈ rest, b.node ≤ M - 1 := by
    intro b hb
    have := hall b (by rw [hbs]; exact List.mem_cons_of_mem b0 hb)
    omega
  have hfold := foldMax_le rest b0.node (M - 1) hb0 hrest
  rw [hval]
  omega

/-- The two-broker cluster of the C10 witness: node 2 holds the strict
maximum ID. -/
def stX : ClusterState :=
  ClusterState.mk [Broker.mk 0 0 1, Broker.mk 2 1 2] [] 2 []

/-- C10 witness: removing node 2 from stX and auto-adding assigns an ID
at most 2. -/
theorem addNode_reuses_removed_id_witness :
    (RemoveNode (fun _ => 0) stX 2).2 = none ∧
    (RemoveNode (fun _ => 0) stX 2).1.bs ≠ [] ∧
    (AddNode (fun _ => some 40000) (fun _ => 0)
      (RemoveNode (fun _ => 0) stX 2).1 (-1) 0).2.1 ≤ 2 := by
  refine addNode_reuses_removed_id (fun _ => some 40000) (fun _ => 0) (fun _ => 0)
    stX 2 1 0 rfl ?_ (by decide)
  intro j b2 hj hne
  match j with
  | 0 =>
    have : b2 = Broker.mk 0 0 1 := by
      have := Option.some.inj hj.symm
      rw [this]
    rw [this]
    norm_num
  | 1 => exact absurd rfl hne
  | (n + 2) => simp [stX] at hj

end Kfake
